import Mathlib

/-!
Verification of the core raycasting engine of `backrooms-rs`.

The embedding models `src/util.rs` (the `Direction` compass type and its
operations) and `src/camera.rs` (the box-edge intersection `raycast_in_box`,
the cell-marching loop `raycast`, and the camera ray fan `raycast_camera`).
Rust `f32` arithmetic is embedded as exact rational arithmetic (`ℚ`); the
geometry of every claim is exact, so no rounding behaviour is modelled.
The `panic!("Cannot raycast with zero-valued ray")` in `towards_origin` is
modelled by returning `none`.
-/

namespace Backrooms

/-- 2-d vector over ℚ, embedding cgmath `Vector2<f32>`. -/
structure Vec2 where
  x : ℚ
  y : ℚ
deriving DecidableEq

/-- 2-d vector over ℤ, embedding cgmath `Vector2<isize>`. -/
structure IVec2 where
  x : ℤ
  y : ℤ
deriving DecidableEq

instance : Add Vec2 := ⟨fun a b => ⟨a.x + b.x, a.y + b.y⟩⟩

instance : Sub Vec2 := ⟨fun a b => ⟨a.x - b.x, a.y - b.y⟩⟩

instance : Add IVec2 := ⟨fun a b => ⟨a.x + b.x, a.y + b.y⟩⟩

/-- Scalar multiple `c * v` of a vector. -/
def Vec2.scale (c : ℚ) (v : Vec2) : Vec2 := ⟨c * v.x, c * v.y⟩

/-- Dot product. -/
def Vec2.dot (a b : Vec2) : ℚ := a.x * b.x + a.y * b.y

/-- Squared distance, embedding cgmath `MetricSpace::distance2`. -/
def Vec2.dist2 (a b : Vec2) : ℚ := (a.x - b.x) ^ 2 + (a.y - b.y) ^ 2

/-- The integer grid cell as a ℚ vector (the Rust `this_grid.cast()`). -/
def IVec2.toVec2 (g : IVec2) : Vec2 := ⟨(g.x : ℚ), (g.y : ℚ)⟩

/-- Componentwise floor (the Rust `march_pos.map(|x| x.floor()).cast::<isize>()`). -/
def floorGrid (p : Vec2) : IVec2 := ⟨⌊p.x⌋, ⌊p.y⌋⟩

/-- `Direction` from `src/util.rs`. -/
inductive Direction where
  | East
  | North
  | West
  | South
deriving DecidableEq

/-- `impl Neg for Direction` from `src/util.rs`. -/
def Direction.neg : Direction → Direction
  | .East => .West
  | .North => .South
  | .West => .East
  | .South => .North

instance : Neg Direction := ⟨Direction.neg⟩

/-- `Direction::reflect_lr` from `src/util.rs`. -/
def Direction.reflect_lr : Direction → Direction
  | .East => .West
  | .West => .East
  | ns => ns

/-- `Direction::reflect_ud` from `src/util.rs`. -/
def Direction.reflect_ud : Direction → Direction
  | .North => .South
  | .South => .North
  | ew => ew

/-- `Turnable::rotate(TurnDir::Left)` for `Direction` from `src/util.rs`. -/
def Direction.rotateLeft : Direction → Direction
  | .East => .North
  | .North => .West
  | .West => .South
  | .South => .East

/-- `impl From<Direction> for Vector2<S>` at `S = isize` from `src/util.rs`. -/
def Direction.toIVec : Direction → IVec2
  | .East => ⟨1, 0⟩
  | .North => ⟨0, 1⟩
  | .West => ⟨-1, 0⟩
  | .South => ⟨0, -1⟩

/-- `impl From<Direction> for Vector2<S>` at `S = f32` from `src/util.rs`. -/
def Direction.toVec2 : Direction → Vec2
  | .East => ⟨1, 0⟩
  | .North => ⟨0, 1⟩
  | .West => ⟨-1, 0⟩
  | .South => ⟨0, -1⟩

/-- `impl From<Vector2<f32>> for Direction` from `src/util.rs`:
`match (v.x >= v.y, v.x >= -v.y)`. -/
def Direction.fromVec2 (v : Vec2) : Direction :=
  if v.x ≥ v.y then
    if v.x ≥ -v.y then .North else .West
  else
    if v.x ≥ -v.y then .East else .South

/-- Inner helper `towards_origin` of `raycast_in_box` in `src/camera.rs`.
The Rust `panic!("Cannot raycast with zero-valued ray")` is modelled as
`none`. -/
def towards_origin (pos ray : Vec2) : Option (Vec2 × Direction) :=
  let xdir := if 0 < ray.x then Direction.East else Direction.West
  let ydir := if 0 < ray.y then Direction.North else Direction.South
  if ray.x = 0 then
    if ray.y = 0 then
      none
    else
      some (⟨pos.x, 0⟩, ydir)
  else if ray.y = 0 then
    some (⟨0, pos.y⟩, xdir)
  else
    let x_int := pos.x - (ray.x / ray.y) * pos.y
    let y_int := pos.y - (ray.y / ray.x) * pos.x
    if x_int < 0 then
      some (⟨0, y_int⟩, xdir)
    else
      some (⟨x_int, 0⟩, ydir)

/-- The part of `raycast_in_box` after its `ray.x > 0.0` branch (the
`ray.y > 0.0` reflection and the fall-through call of `towards_origin`). -/
def raycast_in_box_core (pos ray : Vec2) : Option (Vec2 × Direction) :=
  if 0 < ray.y then
    match towards_origin ⟨pos.x, 1 - pos.y⟩ ⟨ray.x, -ray.y⟩ with
    | none => none
    | some (o, d) => some (⟨o.x, 1 - o.y⟩, d.reflect_ud)
  else
    towards_origin pos ray

/-- `raycast_in_box` from `src/camera.rs`.  The Rust function recurses once
in its `ray.x > 0.0` branch with the x-mirrored ray `(-ray.x, ray.y)`; since
that mirrored ray has non-positive x the recursive call always falls through
to the remaining two branches, which are `raycast_in_box_core` here. -/
def raycast_in_box (pos ray : Vec2) : Option (Vec2 × Direction) :=
  if 0 < ray.x then
    match raycast_in_box_core ⟨1 - pos.x, pos.y⟩ ⟨-ray.x, ray.y⟩ with
    | none => none
    | some (o, d) => some (⟨1 - o.x, o.y⟩, d.reflect_lr)
  else
    raycast_in_box_core pos ray

/-- `RaycastHit` from `src/camera.rs`.  The Rust `wall: Vector2<usize>` is
produced by `probe_cell.cast::<usize>().unwrap()`; `wall` is modelled as the
signed `probe_cell` value, and non-negativity of its components (success of
the unsigned cast) is proved separately. -/
structure RaycastHit where
  hit_pos : Vec2
  wall : IVec2
  wall_side : Direction
deriving DecidableEq

/-- Outcome of the `loop` in `raycast`: the Rust panic inside
`raycast_in_box`, the `return None` of the distance check, or a wall hit. -/
inductive MarchResult where
  | panicked
  | miss
  | hit (h : RaycastHit)
deriving DecidableEq

/-- The `loop` body of `raycast` from `src/camera.rs`, with explicit fuel;
`none` means the fuel ran out before the loop returned.  The world
capability `RaycastableWorld` is a function `IVec2 → Bool` (its single
method `exists`). -/
def raycastLoop (world : IVec2 → Bool) (pos ray : Vec2) (max_dist_2 : ℚ) :
    ℕ → Vec2 → IVec2 → Option MarchResult
  | 0, _, _ => none
  | fuel + 1, march_pos, this_grid =>
    if max_dist_2 < Vec2.dist2 march_pos pos then
      some .miss
    else
      let box_offset := this_grid.toVec2
      let box_pos := march_pos - box_offset
      match raycast_in_box box_pos ray with
      | none => some .panicked
      | some (box_hit_pos, outgoing_dir) =>
        let hit_pos := box_hit_pos + box_offset
        let probe_cell := this_grid + outgoing_dir.toIVec
        if world probe_cell then
          some (.hit ⟨hit_pos, probe_cell, -outgoing_dir⟩)
        else
          raycastLoop world pos ray max_dist_2 fuel hit_pos probe_cell

/-- Fuel that always suffices for `raycastLoop` (proved below): the march
advances one grid cell per iteration and the distance check stops it after
at most `2 * (⌈max_dist⌉ + 2)` cells. -/
def raycastFuel (max_dist : ℚ) : ℕ := 2 * ⌈max_dist⌉.toNat + 6

/-- `raycast` from `src/camera.rs`.  Runs the marching loop with sufficient
fuel; a `miss` (the Rust `return None`) and the modelled panic both give
`none` at the `Option<RaycastHit>` interface. -/
def raycast (world : IVec2 → Bool) (pos ray : Vec2) (max_dist : ℚ) :
    Option RaycastHit :=
  match raycastLoop world pos ray (max_dist * max_dist) (raycastFuel max_dist)
      pos (floorGrid pos) with
  | some (.hit h) => some h
  | _ => none

/-- The ray of index `i` generated by `gen_rays` from `src/camera.rs`. -/
def gen_ray (facing_unit : Vec2) (projection_plane_width : ℚ) (n_rays : ℕ)
    (i : ℕ) : Vec2 :=
  let facing_left_unit : Vec2 := ⟨facing_unit.y, -facing_unit.x⟩
  let pp_leftmost_point :=
    facing_unit + Vec2.scale (projection_plane_width / 2) facing_left_unit
  pp_leftmost_point -
    Vec2.scale ((i : ℚ) * projection_plane_width / (n_rays : ℚ)) facing_left_unit

/-- `gen_rays` from `src/camera.rs`, as the list of its iterator's items. -/
def gen_rays (facing_unit : Vec2) (projection_plane_width : ℚ) (n_rays : ℕ) :
    List Vec2 :=
  (List.range n_rays).map (gen_ray facing_unit projection_plane_width n_rays)

/-- `CameraParams` from `src/camera.rs`. -/
structure CameraParams where
  pos : Vec2
  facing_unit : Vec2
  n_rays : ℕ
  max_dist : ℚ
  projection_plane_width : ℚ

/-- `raycast_camera` from `src/camera.rs`. -/
def raycast_camera (world : IVec2 → Bool) (params : CameraParams) :
    List (Option RaycastHit) :=
  (gen_rays params.facing_unit params.projection_plane_width params.n_rays).map
    (fun ray => raycast world params.pos ray params.max_dist)

/-- Occupancy rows of the 9×6 reference fixture `example_world` in
`src/camera.rs` (`data.map(|x| *x != 0)`); row index is the y grid
coordinate, column index the x grid coordinate. -/
def exampleRows : List (List Bool) :=
  [[true, true, true, true, true, true, true, true, true],
   [true, false, false, false, false, false, false, false, true],
   [true, false, false, false, false, false, false, false, true],
   [true, false, false, false, false, false, true, false, true],
   [true, false, false, false, false, false, false, false, true],
   [true, true, true, true, true, true, true, true, true]]

/-- Modelled from the spec: the `exists` query of `ArrayWorld` (the world
implementation behind the reference fixture is not under `src/`; the spec
defines the capability as "does a cell at integer coordinates exist", with
out-of-range coordinates, including negative ones, defined as empty). -/
def exampleWorld (c : IVec2) : Bool :=
  if 0 ≤ c.x ∧ 0 ≤ c.y then
    (exampleRows.getD c.y.toNat []).getD c.x.toNat false
  else
    false

@[simp] lemma Vec2_mk_x (a b : ℚ) : (Vec2.mk a b).x = a := rfl

@[simp] lemma Vec2_mk_y (a b : ℚ) : (Vec2.mk a b).y = b := rfl

@[simp] lemma IVec2_mk_x (a b : ℤ) : (IVec2.mk a b).x = a := rfl

@[simp] lemma IVec2_mk_y (a b : ℤ) : (IVec2.mk a b).y = b := rfl

/-! ### Specification predicates -/

/-- Membership in the closed unit square [0,1] × [0,1]. -/
def inUnitBox (p : Vec2) : Prop := 0 ≤ p.x ∧ p.x ≤ 1 ∧ 0 ≤ p.y ∧ p.y ≤ 1

instance (p : Vec2) : Decidable (inUnitBox p) := by
  unfold inUnitBox; infer_instance

/-- The exit point's coordinate on the exited side is on the boundary. -/
def exitCoord (d : Direction) (q : Vec2) : Prop :=
  match d with
  | .East => q.x = 1
  | .West => q.x = 0
  | .North => q.y = 1
  | .South => q.y = 0

/-- The exited side faces the ray's direction of travel. -/
def raySign (d : Direction) (r : Vec2) : Prop :=
  match d with
  | .East => 0 < r.x
  | .West => r.x < 0
  | .North => 0 < r.y
  | .South => r.y < 0

/-- Exactly one coordinate equals 0 or 1, the other lies inside [0,1]
(the phrasing of the spec's exit-point property), as a boolean. -/
def exactlyOneOnBoundary (q : Vec2) : Bool :=
  let bx := q.x = 0 ∨ q.x = 1
  let by_ := q.y = 0 ∨ q.y = 1
  (decide bx && !(decide by_) && decide (0 ≤ q.y ∧ q.y ≤ 1)) ||
    (decide by_ && !(decide bx) && decide (0 ≤ q.x ∧ q.x ≤ 1))

/-! ### Box-edge intersection: exit point specification -/

lemma towards_origin_spec (p r : Vec2) (hx : r.x ≤ 0) (hy : r.y ≤ 0)
    (hr : ¬(r.x = 0 ∧ r.y = 0)) (hp : inUnitBox p) :
    ∃ q d, towards_origin p r = some (q, d) ∧ inUnitBox q ∧ exitCoord d q ∧
      raySign d r := by
  obtain ⟨hp0, hp1, hp2, hp3⟩ := hp
  by_cases hx0 : r.x = 0
  · have hy0 : r.y ≠ 0 := fun h => hr ⟨hx0, h⟩
    have hylt : r.y < 0 := lt_of_le_of_ne hy hy0
    refine ⟨⟨p.x, 0⟩, .South, ?_, ?_, ?_, ?_⟩
    · simp only [towards_origin, if_pos hx0, if_neg hy0, if_neg (not_lt.mpr hy)]
    · exact ⟨hp0, hp1, le_refl 0, zero_le_one⟩
    · rfl
    · exact hylt
  · have hxlt : r.x < 0 := lt_of_le_of_ne hx hx0
    by_cases hy0 : r.y = 0
    · refine ⟨⟨0, p.y⟩, .West, ?_, ?_, ?_, ?_⟩
      · simp only [towards_origin, if_neg hx0, if_pos hy0, if_neg (not_lt.mpr hx)]
      · exact ⟨le_refl 0, zero_le_one, hp2, hp3⟩
      · rfl
      · exact hxlt
    · have hylt : r.y < 0 := lt_of_le_of_ne hy hy0
      by_cases hxi : p.x - (r.x / r.y) * p.y < 0
      · refine ⟨⟨0, p.y - (r.y / r.x) * p.x⟩, .West, ?_, ?_, ?_, ?_⟩
        · simp only [towards_origin, if_neg hx0, if_neg hy0, if_pos hxi,
            if_neg (not_lt.mpr hx)]
        · have hratio : 0 < r.y / r.x := div_pos_iff.mpr (Or.inr ⟨hylt, hxlt⟩)
          have hkey : r.x * p.y < p.x * r.y := by
            have := hxi
            rw [div_mul_eq_mul_div, sub_neg, lt_div_iff_of_neg hylt] at this
            exact this
          have hle : 0 ≤ (r.y / r.x) * p.x := mul_nonneg hratio.le hp0
          refine ⟨le_refl 0, zero_le_one, ?_, by simp; linarith⟩
          simp only [Vec2_mk_y]
          rw [sub_nonneg, div_mul_eq_mul_div, div_le_iff_of_neg hxlt]
          nlinarith [hkey]
        · rfl
        · exact hxlt
      · refine ⟨⟨p.x - (r.x / r.y) * p.y, 0⟩, .South, ?_, ?_, ?_, ?_⟩
        · simp only [towards_origin, if_neg hx0, if_neg hy0, if_neg hxi,
            if_neg (not_lt.mpr hy)]
        · have hratio : 0 < r.x / r.y := div_pos_iff.mpr (Or.inr ⟨hxlt, hylt⟩)
          have h1 : 0 ≤ (r.x / r.y) * p.y := mul_nonneg hratio.le hp2
          exact ⟨not_lt.mp hxi, by linarith, le_refl 0, zero_le_one⟩
        · rfl
        · exact hylt

lemma raycast_in_box_core_spec (p r : Vec2) (hx : r.x ≤ 0) (hr : r ≠ ⟨0, 0⟩)
    (hp : inUnitBox p) :
    ∃ q d, raycast_in_box_core p r = some (q, d) ∧ inUnitBox q ∧
      exitCoord d q ∧ raySign d r := by
  have hr' : ¬(r.x = 0 ∧ r.y = 0) := by
    intro ⟨h1, h2⟩; exact hr (by cases r; simp_all)
  obtain ⟨hp0, hp1, hp2, hp3⟩ := hp
  by_cases hy : 0 < r.y
  · obtain ⟨o, d₀, heq, hob, hoc, hos⟩ :=
      towards_origin_spec ⟨p.x, 1 - p.y⟩ ⟨r.x, -r.y⟩ hx (by simp; linarith)
        (by simp only [Vec2_mk_x, Vec2_mk_y, neg_eq_zero, not_and]
            intro _; exact ne_of_gt hy)
        ⟨hp0, hp1, by simp; linarith, by simp; linarith⟩
    obtain ⟨ho0, ho1, ho2, ho3⟩ := hob
    refine ⟨⟨o.x, 1 - o.y⟩, d₀.reflect_ud, ?_,
      ⟨ho0, ho1, by simp; linarith, by simp; linarith⟩, ?_, ?_⟩
    · simp only [raycast_in_box_core, if_pos hy, heq]
    · cases d₀ with
      | East => exact hoc
      | West => exact hoc
      | North => exact absurd hos (by simp [raySign]; linarith)
      | South => simp only [exitCoord, raySign, Direction.reflect_ud] at hoc ⊢; linarith
    · cases d₀ with
      | East => exact absurd hos (by simp [raySign]; linarith)
      | West => exact hos
      | North => exact absurd hos (by simp [raySign]; linarith)
      | South => simp only [raySign, Direction.reflect_ud] at hos ⊢; linarith
  · obtain ⟨q, d, heq, hqb, hqc, hqs⟩ :=
      towards_origin_spec p r hx (not_lt.mp hy) hr' ⟨hp0, hp1, hp2, hp3⟩
    exact ⟨q, d, by simp only [raycast_in_box_core, if_neg hy]; exact heq, hqb, hqc, hqs⟩

lemma raycast_in_box_spec (p r : Vec2) (hr : r ≠ ⟨0, 0⟩) (hp : inUnitBox p) :
    ∃ q d, raycast_in_box p r = some (q, d) ∧ inUnitBox q ∧
      exitCoord d q ∧ raySign d r := by
  obtain ⟨hp0, hp1, hp2, hp3⟩ := hp
  by_cases hx : 0 < r.x
  · obtain ⟨o, d₀, heq, hob, hoc, hos⟩ :=
      raycast_in_box_core_spec ⟨1 - p.x, p.y⟩ ⟨-r.x, r.y⟩ (by simp; linarith)
        (by simp only [ne_eq, Vec2.mk.injEq, neg_eq_zero, not_and]
            intro h; exact absurd h (ne_of_gt hx))
        ⟨by simp; linarith, by simp; linarith, hp2, hp3⟩
    obtain ⟨ho0, ho1, ho2, ho3⟩ := hob
    refine ⟨⟨1 - o.x, o.y⟩, d₀.reflect_lr, ?_,
      ⟨by simp; linarith, by simp; linarith, ho2, ho3⟩, ?_, ?_⟩
    · simp only [raycast_in_box, if_pos hx, heq]
    · cases d₀ with
      | East => exact absurd hos (by simp [raySign]; linarith)
      | West => simp only [exitCoord, Direction.reflect_lr] at hoc ⊢; linarith
      | North => exact hoc
      | South => exact hoc
    · cases d₀ with
      | East => exact absurd hos (by simp [raySign]; linarith)
      | West => simpa [raySign, Direction.reflect_lr] using hx
      | North => exact hos
      | South => exact hos
  · obtain ⟨q, d, heq, hqb, hqc, hqs⟩ :=
      raycast_in_box_core_spec p r (not_lt.mp hx) hr ⟨hp0, hp1, hp2, hp3⟩
    exact ⟨q, d, by simp only [raycast_in_box, if_neg hx]; exact heq, hqb, hqc, hqs⟩

/-! ### The panic condition -/

lemma towards_origin_eq_none_iff (p r : Vec2) :
    towards_origin p r = none ↔ r.x = 0 ∧ r.y = 0 := by
  simp only [towards_origin]
  split_ifs <;> simp_all

lemma raycast_in_box_core_eq_none_iff (p r : Vec2) :
    raycast_in_box_core p r = none ↔ r.x = 0 ∧ r.y = 0 := by
  simp only [raycast_in_box_core]
  by_cases hy : 0 < r.y
  · rw [if_pos hy]
    rcases heq : towards_origin ⟨p.x, 1 - p.y⟩ ⟨r.x, -r.y⟩ with _ | ⟨o, d⟩
    · rw [towards_origin_eq_none_iff] at heq
      simp at heq
      constructor
      · intro _; exact absurd heq.2 (by linarith)
      · intro ⟨_, h2⟩; exact absurd h2 (by linarith)
    · simp
      intro _ h2
      exact absurd h2 (by linarith)
  · rw [if_neg hy]
    exact towards_origin_eq_none_iff p r

lemma raycast_in_box_eq_none_iff (p r : Vec2) :
    raycast_in_box p r = none ↔ r = ⟨0, 0⟩ := by
  have hiff : r = (⟨0, 0⟩ : Vec2) ↔ r.x = 0 ∧ r.y = 0 := by cases r; simp
  simp only [raycast_in_box]
  by_cases hx : 0 < r.x
  · rw [if_pos hx]
    rcases heq : raycast_in_box_core ⟨1 - p.x, p.y⟩ ⟨-r.x, r.y⟩ with _ | ⟨o, d⟩
    · rw [raycast_in_box_core_eq_none_iff] at heq
      simp at heq
      exact absurd heq.1 (by linarith)
    · simp [hiff]
      intro h1
      exact absurd h1 (by linarith)
  · rw [if_neg hx, raycast_in_box_core_eq_none_iff, hiff]

/-! ### Reflection symmetry of the box-edge intersection -/

lemma Direction.reflect_lr_invol (d : Direction) : d.reflect_lr.reflect_lr = d := by
  cases d <;> rfl

lemma Direction.reflect_ud_invol (d : Direction) : d.reflect_ud.reflect_ud = d := by
  cases d <;> rfl

lemma Direction.reflect_comm (d : Direction) :
    d.reflect_lr.reflect_ud = d.reflect_ud.reflect_lr := by
  cases d <;> rfl

/-- x-mirroring the position together with the ray mirrors the exit point
and left-right reflects the exit side. -/
lemma raycast_in_box_lr_flip (p r q : Vec2) (s : Direction)
    (h : raycast_in_box p r = some (q, s)) :
    raycast_in_box ⟨1 - p.x, p.y⟩ ⟨-r.x, r.y⟩ =
      some (⟨1 - q.x, q.y⟩, s.reflect_lr) := by
  obtain ⟨px, py⟩ := p
  obtain ⟨rx, ry⟩ := r
  rcases lt_trichotomy rx 0 with hx | hx | hx
  · rw [raycast_in_box, if_neg (by simp; linarith)] at h
    rw [raycast_in_box, if_pos (by simp; linarith)]
    simp only [Vec2_mk_x, Vec2_mk_y, neg_neg]
    have e1 : (Vec2.mk (1 - (1 - px)) py) = ⟨px, py⟩ := by simp
    rw [e1, h]
  · subst hx
    simp only [neg_zero] at h ⊢
    rw [raycast_in_box, if_neg (by simp)] at h
    rw [raycast_in_box, if_neg (by simp)]
    rcases lt_trichotomy ry 0 with hy | hy | hy
    · rw [raycast_in_box_core, if_neg (by simp; linarith)] at h
      rw [raycast_in_box_core, if_neg (by simp; linarith)]
      simp [towards_origin, hy.ne, not_lt.mpr hy.le] at h
      obtain ⟨h1, h2⟩ := h
      subst h1; subst h2
      simp [towards_origin, hy.ne, not_lt.mpr hy.le, Direction.reflect_lr]
    · subst hy
      rw [raycast_in_box_core, if_neg (by simp)] at h
      simp [towards_origin] at h
    · rw [raycast_in_box_core, if_pos (by simpa using hy)] at h
      rw [raycast_in_box_core, if_pos (by simpa using hy)]
      simp [towards_origin, hy.ne', not_lt.mpr (by linarith : -ry ≤ 0),
        Direction.reflect_ud] at h
      obtain ⟨h1, h2⟩ := h
      subst h1; subst h2
      simp [towards_origin, hy.ne', not_lt.mpr (by linarith : -ry ≤ 0),
        Direction.reflect_ud, Direction.reflect_lr]
  · rw [raycast_in_box, if_pos (by simpa using hx)] at h
    rw [raycast_in_box, if_neg (by simp; linarith)]
    rcases heq : raycast_in_box_core ⟨1 - px, py⟩ ⟨-rx, ry⟩ with _ | ⟨o, d₀⟩
    · rw [heq] at h; simp at h
    · rw [heq] at h
      simp only [Option.some.injEq, Prod.mk.injEq] at h
      obtain ⟨h1, h2⟩ := h
      rw [← h1, ← h2]
      simp [Direction.reflect_lr_invol, Vec2.mk.injEq, sub_sub_cancel]

/-- y-mirroring the position together with the ray, at the level of
`raycast_in_box_core`. -/
lemma raycast_in_box_core_ud_flip (p r q : Vec2) (s : Direction)
    (h : raycast_in_box_core p r = some (q, s)) :
    raycast_in_box_core ⟨p.x, 1 - p.y⟩ ⟨r.x, -r.y⟩ =
      some (⟨q.x, 1 - q.y⟩, s.reflect_ud) := by
  obtain ⟨px, py⟩ := p
  obtain ⟨rx, ry⟩ := r
  rcases lt_trichotomy ry 0 with hy | hy | hy
  · rw [raycast_in_box_core, if_neg (by simp; linarith)] at h
    rw [raycast_in_box_core, if_pos (by simp; linarith)]
    simp only [Vec2_mk_x, Vec2_mk_y, neg_neg]
    have e1 : (Vec2.mk px (1 - (1 - py))) = ⟨px, py⟩ := by simp
    rw [e1, h]
  · subst hy
    simp only [neg_zero] at h ⊢
    rw [raycast_in_box_core, if_neg (by simp)] at h
    rw [raycast_in_box_core, if_neg (by simp)]
    by_cases hx0 : rx = 0
    · simp [towards_origin, hx0] at h
    · by_cases hxs : 0 < rx
      · simp [towards_origin, hx0, if_pos hxs] at h
        obtain ⟨h1, h2⟩ := h
        subst h1; subst h2
        simp [towards_origin, hx0, if_pos hxs, Direction.reflect_ud]
      · simp [towards_origin, hx0, if_neg hxs] at h
        obtain ⟨h1, h2⟩ := h
        subst h1; subst h2
        simp [towards_origin, hx0, if_neg hxs, Direction.reflect_ud]
  · rw [raycast_in_box_core, if_pos (by simpa using hy)] at h
    rw [raycast_in_box_core, if_neg (by simp; linarith)]
    rcases heq : towards_origin ⟨px, 1 - py⟩ ⟨rx, -ry⟩ with _ | ⟨o, d₀⟩
    · rw [heq] at h; simp at h
    · rw [heq] at h
      simp only [Option.some.injEq, Prod.mk.injEq] at h
      obtain ⟨h1, h2⟩ := h
      rw [← h1, ← h2]
      simp [Direction.reflect_ud_invol, Vec2.mk.injEq, sub_sub_cancel]

/-- y-mirroring the position together with the ray mirrors the exit point
and up-down reflects the exit side. -/
lemma raycast_in_box_ud_flip (p r q : Vec2) (s : Direction)
    (h : raycast_in_box p r = some (q, s)) :
    raycast_in_box ⟨p.x, 1 - p.y⟩ ⟨r.x, -r.y⟩ =
      some (⟨q.x, 1 - q.y⟩, s.reflect_ud) := by
  obtain ⟨px, py⟩ := p
  obtain ⟨rx, ry⟩ := r
  by_cases hx : 0 < rx
  · rw [raycast_in_box, if_pos (by simpa using hx)] at h
    rw [raycast_in_box, if_pos (by simpa using hx)]
    rcases heq : raycast_in_box_core ⟨1 - px, py⟩ ⟨-rx, ry⟩ with _ | ⟨o, d₀⟩
    · rw [heq] at h; simp at h
    · rw [heq] at h
      simp only [Option.some.injEq, Prod.mk.injEq] at h
      obtain ⟨h1, h2⟩ := h
      have hflip := raycast_in_box_core_ud_flip ⟨1 - px, py⟩ ⟨-rx, ry⟩ o d₀ heq
      simp only [Vec2_mk_x, Vec2_mk_y] at hflip
      rw [hflip, ← h1, ← h2]
      simp [Direction.reflect_comm, Vec2.mk.injEq]
  · rw [raycast_in_box, if_neg (by simpa using hx)] at h
    rw [raycast_in_box, if_neg (by simpa using hx)]
    have := raycast_in_box_core_ud_flip ⟨px, py⟩ ⟨rx, ry⟩ q s h
    simpa using this

/-! ### The marching loop: invariants and termination -/

@[simp] lemma Vec2_add_x (a b : Vec2) : (a + b).x = a.x + b.x := rfl

@[simp] lemma Vec2_add_y (a b : Vec2) : (a + b).y = a.y + b.y := rfl

@[simp] lemma Vec2_sub_x (a b : Vec2) : (a - b).x = a.x - b.x := rfl

@[simp] lemma Vec2_sub_y (a b : Vec2) : (a - b).y = a.y - b.y := rfl

@[simp] lemma IVec2_add_x (a b : IVec2) : (a + b).x = a.x + b.x := rfl

@[simp] lemma IVec2_add_y (a b : IVec2) : (a + b).y = a.y + b.y := rfl

@[simp] lemma IVec2_toVec2_x (g : IVec2) : g.toVec2.x = (g.x : ℚ) := rfl

@[simp] lemma IVec2_toVec2_y (g : IVec2) : g.toVec2.y = (g.y : ℚ) := rfl

/-- The marching position always stays inside the current cell's unit box:
the local coordinates after advancing through side `d`. -/
lemma exit_inUnitBox_sub (q : Vec2) (d : Direction) (hq : inUnitBox q)
    (hc : exitCoord d q) : inUnitBox (q - d.toIVec.toVec2) := by
  obtain ⟨h0, h1, h2, h3⟩ := hq
  cases d <;> simp only [exitCoord] at hc <;>
    simp [Direction.toIVec, IVec2.toVec2, inUnitBox, hc] <;>
    constructor <;> linarith

lemma Vec2_eq_of_coords (a b : Vec2) (hx : a.x = b.x) (hy : a.y = b.y) : a = b := by
  cases a; cases b; simp_all

/-- Advancing to the neighbouring cell re-bases the local position. -/
lemma box_pos_step (q : Vec2) (g : IVec2) (d : Direction) :
    (q + g.toVec2) - (g + d.toIVec).toVec2 = q - d.toIVec.toVec2 := by
  cases d <;>
    refine Vec2_eq_of_coords _ _ ?_ ?_ <;>
    simp [Direction.toIVec, IVec2.toVec2] <;> push_cast <;> ring

/-- Signed cell progress along the fixed ray direction. -/
def qpot (r : Vec2) (g0 g : IVec2) : ℤ :=
  (if 0 < r.x then g.x - g0.x else g0.x - g.x) +
    (if 0 < r.y then g.y - g0.y else g0.y - g.y)

lemma qpot_self (r : Vec2) (g0 : IVec2) : qpot r g0 g0 = 0 := by
  simp [qpot]

lemma qpot_step (r : Vec2) (g0 g : IVec2) (d : Direction) (hd : raySign d r) :
    qpot r g0 (g + d.toIVec) = qpot r g0 g + 1 := by
  cases d <;> simp only [raySign] at hd
  · simp only [qpot, Direction.toIVec, IVec2_add_x, IVec2_add_y, IVec2_mk_x,
      IVec2_mk_y, if_pos hd]
    ring
  · simp only [qpot, Direction.toIVec, IVec2_add_x, IVec2_add_y, IVec2_mk_x,
      IVec2_mk_y, if_pos hd]
    ring
  · simp only [qpot, Direction.toIVec, IVec2_add_x, IVec2_add_y, IVec2_mk_x,
      IVec2_mk_y, if_neg (not_lt.mpr hd.le)]
    ring
  · simp only [qpot, Direction.toIVec, IVec2_add_x, IVec2_add_y, IVec2_mk_x,
      IVec2_mk_y, if_neg (not_lt.mpr hd.le)]
    ring

lemma qpot_le_abs (r : Vec2) (g0 g : IVec2) :
    qpot r g0 g ≤ |g.x - g0.x| + |g.y - g0.y| := by
  unfold qpot
  apply add_le_add <;> split_ifs
  · exact le_abs_self _
  · rw [← neg_sub]; exact neg_le_abs _
  · exact le_abs_self _
  · rw [← neg_sub]; exact neg_le_abs _

/-- The current grid cell contains the marching position (its floor). -/
lemma floorGrid_inUnitBox (p : Vec2) : inUnitBox (p - (floorGrid p).toVec2) := by
  refine ⟨?_, ?_, ?_, ?_⟩ <;>
    simp only [floorGrid, Vec2_sub_x, Vec2_sub_y, IVec2_toVec2_x, IVec2_toVec2_y,
      IVec2_mk_x, IVec2_mk_y]
  · linarith [Int.floor_le p.x]
  · linarith [Int.lt_floor_add_one p.x]
  · linarith [Int.floor_le p.y]
  · linarith [Int.lt_floor_add_one p.y]

/-- Once the cell has progressed `2 * (m + 2)` steps along the ray, the
squared distance from the start exceeds `(m + 1)²`. -/
lemma dist2_ge_of_qpot (r pos mp : Vec2) (g0 g : IVec2) (m : ℕ)
    (hpos : inUnitBox (pos - g0.toVec2)) (hmp : inUnitBox (mp - g.toVec2))
    (hq : (2 * ((m : ℤ) + 2)) ≤ qpot r g0 g) :
    ((m : ℚ) + 1) ^ 2 ≤ Vec2.dist2 mp pos := by
  have habs : (2 * ((m : ℤ) + 2)) ≤ |g.x - g0.x| + |g.y - g0.y| :=
    le_trans hq (qpot_le_abs r g0 g)
  have hmax : ((m : ℤ) + 2) ≤ |g.x - g0.x| ∨ ((m : ℤ) + 2) ≤ |g.y - g0.y| := by
    by_contra hcon
    push_neg at hcon
    omega
  obtain ⟨a1, a2, a3, a4⟩ := hpos
  obtain ⟨b1, b2, b3, b4⟩ := hmp
  simp only [Vec2_sub_x, Vec2_sub_y, IVec2_toVec2_x, IVec2_toVec2_y] at a1 a2 a3 a4 b1 b2 b3 b4
  unfold Vec2.dist2
  rcases hmax with hcase | hcase
  · have key : ((m : ℚ) + 1) ^ 2 ≤ (mp.x - pos.x) ^ 2 := by
      rcases abs_cases ((g.x : ℤ) - g0.x) with ⟨he, hs⟩ | ⟨he, hs⟩
      · rw [he] at hcase
        have hc : ((m : ℚ) + 2) ≤ (g.x : ℚ) - (g0.x : ℚ) := by exact_mod_cast hcase
        nlinarith
      · rw [he] at hcase
        have hc : ((m : ℚ) + 2) ≤ -((g.x : ℚ) - (g0.x : ℚ)) := by exact_mod_cast hcase
        nlinarith
    nlinarith [sq_nonneg (mp.y - pos.y)]
  · have key : ((m : ℚ) + 1) ^ 2 ≤ (mp.y - pos.y) ^ 2 := by
      rcases abs_cases ((g.y : ℤ) - g0.y) with ⟨he, hs⟩ | ⟨he, hs⟩
      · rw [he] at hcase
        have hc : ((m : ℚ) + 2) ≤ (g.y : ℚ) - (g0.y : ℚ) := by exact_mod_cast hcase
        nlinarith
      · rw [he] at hcase
        have hc : ((m : ℚ) + 2) ≤ -((g.y : ℚ) - (g0.y : ℚ)) := by exact_mod_cast hcase
        nlinarith
    nlinarith [sq_nonneg (mp.x - pos.x)]

/-- The marching loop always returns within `raycastFuel`'s budget: each
iteration advances one cell, and the distance check fires after at most
`2 * (⌈max_dist⌉ + 2)` cells. -/
lemma raycastLoop_isSome (world : IVec2 → Bool) (pos r : Vec2) (max_dist : ℚ)
    (hr : r ≠ ⟨0, 0⟩) (hmd : 0 ≤ max_dist) :
    ∀ (fuel : ℕ) (mp : Vec2) (g : IVec2),
      inUnitBox (mp - g.toVec2) → 1 ≤ fuel →
      (2 * ((⌈max_dist⌉.toNat : ℤ) + 2) + 1) ≤ qpot r (floorGrid pos) g + fuel →
      (raycastLoop world pos r (max_dist * max_dist) fuel mp g).isSome = true := by
  intro fuel
  induction fuel with
  | zero => intro mp g _ h1 _; exact absurd h1 (by omega)
  | succ n ih =>
    intro mp g hinv _ hq
    simp only [raycastLoop]
    by_cases hd : max_dist * max_dist < Vec2.dist2 mp pos
    · simp [hd]
    · rw [if_neg hd]
      have hqle : qpot r (floorGrid pos) g ≤ 2 * ((⌈max_dist⌉.toNat : ℤ) + 2) - 1 := by
        by_contra hcon
        push_neg at hcon
        have h2 : (2 * ((⌈max_dist⌉.toNat : ℤ) + 2)) ≤ qpot r (floorGrid pos) g := by
          omega
        have h3 := dist2_ge_of_qpot r pos mp (floorGrid pos) g ⌈max_dist⌉.toNat
          (floorGrid_inUnitBox pos) hinv h2
        have h4 : max_dist ≤ ((⌈max_dist⌉.toNat : ℚ)) := by
          have h5 : max_dist ≤ (⌈max_dist⌉ : ℚ) := Int.le_ceil max_dist
          have h6 : (⌈max_dist⌉.toNat : ℤ) = ⌈max_dist⌉ :=
            Int.toNat_of_nonneg (Int.ceil_nonneg hmd)
          calc max_dist ≤ (⌈max_dist⌉ : ℚ) := h5
            _ = ((⌈max_dist⌉.toNat : ℤ) : ℚ) := by rw [h6]
            _ = (⌈max_dist⌉.toNat : ℚ) := by push_cast; ring
        exact hd (by nlinarith)
      obtain ⟨q, d, heq, hqb, hqc, hqs⟩ := raycast_in_box_spec (mp - g.toVec2) r hr hinv
      rw [heq]
      by_cases hw : world (g + d.toIVec) = true
      · simp [hw]
      · simp [hw]
        apply ih
        · rw [box_pos_step]
          exact exit_inUnitBox_sub q d hqb hqc
        · omega
        · rw [qpot_step r (floorGrid pos) g d hqs]
          push_cast at hq ⊢
          omega

/-- The marching loop can only panic on the zero ray. -/
lemma raycastLoop_ne_panicked (world : IVec2 → Bool) (pos r : Vec2) (max2 : ℚ)
    (hr : r ≠ ⟨0, 0⟩) :
    ∀ (fuel : ℕ) (mp : Vec2) (g : IVec2),
      raycastLoop world pos r max2 fuel mp g ≠ some .panicked := by
  intro fuel
  induction fuel with
  | zero => intro mp g; simp [raycastLoop]
  | succ n ih =>
    intro mp g
    simp only [raycastLoop]
    by_cases hd : max2 < Vec2.dist2 mp pos
    · simp [hd]
    · rw [if_neg hd]
      rcases heq : raycast_in_box (mp - g.toVec2) r with _ | ⟨q, d⟩
      · exact absurd ((raycast_in_box_eq_none_iff _ _).mp heq) hr
      · by_cases hw : world (g + d.toIVec) = true
        · simp [hw]
        · simp [hw]
          exact ih _ _

/-- On an all-empty world the marching loop never reports a hit. -/
lemma raycastLoop_empty_no_hit (world : IVec2 → Bool) (pos r : Vec2) (max2 : ℚ)
    (hw : ∀ c, world c = false) :
    ∀ (fuel : ℕ) (mp : Vec2) (g : IVec2) (h : RaycastHit),
      raycastLoop world pos r max2 fuel mp g ≠ some (.hit h) := by
  intro fuel
  induction fuel with
  | zero => intro mp g h; simp [raycastLoop]
  | succ n ih =>
    intro mp g h
    simp only [raycastLoop]
    by_cases hd : max2 < Vec2.dist2 mp pos
    · simp [hd]
    · rw [if_neg hd]
      rcases heq : raycast_in_box (mp - g.toVec2) r with _ | ⟨q, d⟩
      · simp
      · simp [hw]
        exact ih _ _ _

/-- Any hit reported by the marching loop struck an occupied neighbour of a
previously-empty (or starting) cell, through the side the ray exited. -/
lemma raycastLoop_hit_spec (world : IVec2 → Bool) (pos r : Vec2) (max2 : ℚ) :
    ∀ (fuel : ℕ) (mp : Vec2) (g : IVec2) (h : RaycastHit),
      (g = floorGrid pos ∨ world g = false) →
      raycastLoop world pos r max2 fuel mp g = some (.hit h) →
      world h.wall = true ∧
      ∃ g' mp' q d, (g' = floorGrid pos ∨ world g' = false) ∧
        raycast_in_box (mp' - g'.toVec2) r = some (q, d) ∧
        h.wall = g' + d.toIVec ∧ h.wall_side = -d ∧ h.hit_pos = q + g'.toVec2 := by
  intro fuel
  induction fuel with
  | zero => intro mp g h _ hres; simp [raycastLoop] at hres
  | succ n ih =>
    intro mp g h hg hres
    simp only [raycastLoop] at hres
    by_cases hd : max2 < Vec2.dist2 mp pos
    · rw [if_pos hd] at hres; simp at hres
    · rw [if_neg hd] at hres
      rcases heq : raycast_in_box (mp - g.toVec2) r with _ | ⟨q, d⟩
      · rw [heq] at hres; simp at hres
      · rw [heq] at hres
        by_cases hw : world (g + d.toIVec) = true
        · simp [hw] at hres
          subst hres
          exact ⟨hw, g, mp, q, d, hg, heq, rfl, rfl, rfl⟩
        · simp [hw] at hres
          exact ih _ _ _ (Or.inr (by simpa using hw)) hres

/-! ### Claim theorems -/

attribute [local semireducible] Rat.mul Rat.add Rat.sub Rat.inv

/-- C1 (amended): for every position in the closed unit box and every
non-zero ray, `raycast_in_box` returns an exit point inside the closed unit
box whose coordinate on the exited side equals 0 or 1 as dictated by the
returned `Direction`; at a corner exit both coordinates may lie on the
boundary, so "exactly one coordinate equal to 0 or 1" does not hold. -/
theorem c1_box_exit_on_boundary (p r : Vec2) (hp : inUnitBox p)
    (hr : r ≠ ⟨0, 0⟩) :
    ∃ q d, raycast_in_box p r = some (q, d) ∧ inUnitBox q ∧ exitCoord d q := by
  obtain ⟨q, d, heq, hqb, hqc, _⟩ := raycast_in_box_spec p r hr hp
  exact ⟨q, d, heq, hqb, hqc⟩

/-- C1 witness: the amended statement applied at a concrete interior point
and ray. -/
theorem c1_box_exit_on_boundary_witness :
    inUnitBox ⟨1/4, 1/2⟩ ∧ (⟨1, -1/4⟩ : Vec2) ≠ ⟨0, 0⟩ ∧
    (∃ q d, raycast_in_box ⟨1/4, 1/2⟩ ⟨1, -1/4⟩ = some (q, d) ∧
      inUnitBox q ∧ exitCoord d q) :=
  ⟨by decide, by decide,
    c1_box_exit_on_boundary ⟨1/4, 1/2⟩ ⟨1, -1/4⟩ (by decide) (by decide)⟩

/-- C1 counterexample: the ray `(1, 1)` from the centre exits exactly at the
corner `(1, 1)`, where both coordinates equal 1, refuting "exactly one
coordinate equal to 0 or 1". -/
theorem c1_counterexample :
    inUnitBox ⟨1/2, 1/2⟩ ∧
    raycast_in_box ⟨1/2, 1/2⟩ ⟨1, 1⟩ = some (⟨1, 1⟩, .North) ∧
    exactlyOneOnBoundary ⟨1, 1⟩ = false := by
  refine ⟨by decide, by decide, by decide⟩

/-- C2: for every world, start, non-zero ray and non-negative distance
budget, the marching loop terminates (returns within the fuel
`raycastFuel max_dist`), and on an all-empty world `raycast` returns
`none`. -/
theorem c2_march_terminates (world : IVec2 → Bool) (pos r : Vec2)
    (max_dist : ℚ) (hr : r ≠ ⟨0, 0⟩) (hmd : 0 ≤ max_dist) :
    (raycastLoop world pos r (max_dist * max_dist) (raycastFuel max_dist) pos
        (floorGrid pos)).isSome = true ∧
    ((∀ c, world c = false) → raycast world pos r max_dist = none) := by
  have hterm := raycastLoop_isSome world pos r max_dist hr hmd
    (raycastFuel max_dist) pos (floorGrid pos) (floorGrid_inUnitBox pos)
    (by unfold raycastFuel; omega)
    (by rw [qpot_self]; unfold raycastFuel; push_cast; omega)
  refine ⟨hterm, fun hw => ?_⟩
  unfold raycast
  rcases hres : raycastLoop world pos r (max_dist * max_dist)
      (raycastFuel max_dist) pos (floorGrid pos) with _ | res
  · rfl
  · cases res with
    | panicked => rfl
    | miss => rfl
    | hit h => exact absurd hres (raycastLoop_empty_no_hit world pos r _ hw _ _ _ _)

/-- C2 witness: the termination statement applied to the all-empty world. -/
theorem c2_march_terminates_witness :
    (raycastLoop (fun _ => false) ⟨0, 0⟩ ⟨1, 0⟩ (1 * 1) (raycastFuel 1) ⟨0, 0⟩
        (floorGrid ⟨0, 0⟩)).isSome = true ∧
    ((∀ c, (fun _ : IVec2 => false) c = false) →
      raycast (fun _ => false) ⟨0, 0⟩ ⟨1, 0⟩ 1 = none) :=
  c2_march_terminates (fun _ => false) ⟨0, 0⟩ ⟨1, 0⟩ 1 (by decide) (by norm_num)

/-- C3: the two reference-fixture raycasts of the test suite, on the 9×6
bordered world: from `(2.5, 2.5)` along `(-1, 0)` and from `(1.05, 1.05)`
along `(-0.5, -1)`. -/
theorem c3_fixture_hits :
    raycast exampleWorld ⟨5/2, 5/2⟩ ⟨-1, 0⟩ 100 =
      some ⟨⟨1, 5/2⟩, ⟨0, 2⟩, .East⟩ ∧
    raycast exampleWorld ⟨21/20, 21/20⟩ ⟨-1/2, -1⟩ 100 =
      some ⟨⟨41/40, 1⟩, ⟨1, 0⟩, .North⟩ := by
  exact ⟨by decide, by decide⟩

/-- C4: `raycast_in_box` hits the modelled panic (returns `none`) exactly on
the zero ray, and for a unit-length facing vector no generated camera ray is
the zero vector. -/
theorem c4_zero_ray_only_panic :
    (∀ p r : Vec2, raycast_in_box p r = none ↔ r = ⟨0, 0⟩) ∧
    (∀ (f : Vec2) (w : ℚ) (n i : ℕ), f.x * f.x + f.y * f.y = 1 → i < n →
      gen_ray f w n i ≠ ⟨0, 0⟩) := by
  refine ⟨raycast_in_box_eq_none_iff, ?_⟩
  intro f w n i hf _ hzero
  have hdot : Vec2.dot (gen_ray f w n i) f = 1 := by
    simp only [gen_ray, Vec2.dot, Vec2.scale, Vec2_add_x, Vec2_add_y,
      Vec2_sub_x, Vec2_sub_y, Vec2_mk_x, Vec2_mk_y]
    ring_nf
    linear_combination hf
  rw [hzero] at hdot
  simp [Vec2.dot] at hdot

/-- C4 witness: concrete instances of both parts. -/
theorem c4_zero_ray_only_panic_witness :
    raycast_in_box ⟨1/2, 1/2⟩ ⟨0, 0⟩ = none ∧ gen_ray ⟨1, 0⟩ 1 1 0 ≠ ⟨0, 0⟩ :=
  ⟨(c4_zero_ray_only_panic.1 ⟨1/2, 1/2⟩ ⟨0, 0⟩).mpr rfl,
    c4_zero_ray_only_panic.2 ⟨1, 0⟩ 1 1 0 (by norm_num) (by norm_num)⟩

/-- C5: `raycast_camera` returns exactly `n_rays` results, the `i`-th being
`raycast` on the ray `facing + (width/2)·leftPerp - i·(width/n_rays)·leftPerp`
with `leftPerp = (facing.y, -facing.x)` — index 0 is the leftmost ray. -/
theorem c5_camera_ray_order (world : IVec2 → Bool) (params : CameraParams) :
    (raycast_camera world params).length = params.n_rays ∧
    ∀ i : ℕ, i < params.n_rays →
      (raycast_camera world params)[i]? =
        some (raycast world params.pos
          (params.facing_unit
            + Vec2.scale (params.projection_plane_width / 2)
                ⟨params.facing_unit.y, -params.facing_unit.x⟩
            - Vec2.scale
                ((i : ℚ) * (params.projection_plane_width / (params.n_rays : ℚ)))
                ⟨params.facing_unit.y, -params.facing_unit.x⟩)
          params.max_dist) := by
  constructor
  · simp [raycast_camera, gen_rays]
  · intro i hi
    have hray : gen_ray params.facing_unit params.projection_plane_width
        params.n_rays i =
        params.facing_unit
          + Vec2.scale (params.projection_plane_width / 2)
              ⟨params.facing_unit.y, -params.facing_unit.x⟩
          - Vec2.scale
              ((i : ℚ) * (params.projection_plane_width / (params.n_rays : ℚ)))
              ⟨params.facing_unit.y, -params.facing_unit.x⟩ := by
      refine Vec2_eq_of_coords _ _ ?_ ?_ <;>
        simp only [gen_ray, Vec2.scale, Vec2_add_x, Vec2_add_y, Vec2_sub_x,
          Vec2_sub_y, Vec2_mk_x, Vec2_mk_y] <;> ring
    simp [raycast_camera, gen_rays, List.getElem?_map, List.getElem?_range hi,
      hray]

/-- C5 witness: the statement applied to a concrete camera. -/
theorem c5_camera_ray_order_witness :
    (raycast_camera (fun _ => false) ⟨⟨0, 0⟩, ⟨1, 0⟩, 2, 1, 1⟩).length = 2 ∧
    (raycast_camera (fun _ => false) ⟨⟨0, 0⟩, ⟨1, 0⟩, 2, 1, 1⟩)[0]? =
      some (raycast (fun _ => false) ⟨0, 0⟩
        (⟨1, 0⟩ + Vec2.scale ((1 : ℚ) / 2) ⟨0, -1⟩
          - Vec2.scale (((0 : ℕ) : ℚ) * ((1 : ℚ) / ((2 : ℕ) : ℚ))) ⟨0, -1⟩) 1) :=
  ⟨(c5_camera_ray_order (fun _ => false) ⟨⟨0, 0⟩, ⟨1, 0⟩, 2, 1, 1⟩).1,
    (c5_camera_ray_order (fun _ => false) ⟨⟨0, 0⟩, ⟨1, 0⟩, 2, 1, 1⟩).2 0
      (by norm_num)⟩

/-- C6 (amended): composing direction-to-unit-vector with the vector
classification is not the identity but the diagonal swap East↔North,
West↔South (equal to `reflect_lr ∘ rotateLeft`); the round trip is still a
bijection on the four directions — an involution. -/
theorem c6_roundtrip_is_diagonal_swap :
    (∀ d : Direction,
      Direction.fromVec2 (Direction.toVec2 d) = d.rotateLeft.reflect_lr) ∧
    (∀ d : Direction,
      Direction.fromVec2 (Direction.toVec2
        (Direction.fromVec2 (Direction.toVec2 d))) = d) := by
  constructor <;> intro d <;> cases d <;> decide

/-- C6 counterexample: the round trip maps East to North, not back to
East. -/
theorem c6_counterexample :
    Direction.fromVec2 (Direction.toVec2 .East) = .North ∧
    Direction.North ≠ Direction.East := by
  exact ⟨by decide, by decide⟩

/-- C7 (amended): the reflection symmetry holds when the position is
mirrored together with the ray: x-mirroring position and ray gives the exit
point with x-coordinate `1 - q.x` and the left-right reflected side, and
analogously for y. -/
theorem c7_reflection_symmetry (p r q : Vec2) (s : Direction)
    (h : raycast_in_box p r = some (q, s)) :
    raycast_in_box ⟨1 - p.x, p.y⟩ ⟨-r.x, r.y⟩ =
      some (⟨1 - q.x, q.y⟩, s.reflect_lr) ∧
    raycast_in_box ⟨p.x, 1 - p.y⟩ ⟨r.x, -r.y⟩ =
      some (⟨q.x, 1 - q.y⟩, s.reflect_ud) :=
  ⟨raycast_in_box_lr_flip p r q s h, raycast_in_box_ud_flip p r q s h⟩

/-- C7 witness: the amended symmetry at a concrete position and ray. -/
theorem c7_reflection_symmetry_witness :
    raycast_in_box ⟨1/4, 1/2⟩ ⟨1, -1/4⟩ = some (⟨1, 5/16⟩, .East) ∧
    (raycast_in_box ⟨1 - (Vec2.mk (1/4) (1/2)).x, (Vec2.mk (1/4) (1/2)).y⟩
        ⟨-(Vec2.mk 1 (-1/4)).x, (Vec2.mk 1 (-1/4)).y⟩ =
      some (⟨1 - (Vec2.mk 1 (5/16)).x, (Vec2.mk 1 (5/16)).y⟩,
        Direction.East.reflect_lr) ∧
    raycast_in_box ⟨(Vec2.mk (1/4) (1/2)).x, 1 - (Vec2.mk (1/4) (1/2)).y⟩
        ⟨(Vec2.mk 1 (-1/4)).x, -(Vec2.mk 1 (-1/4)).y⟩ =
      some (⟨(Vec2.mk 1 (5/16)).x, 1 - (Vec2.mk 1 (5/16)).y⟩,
        Direction.East.reflect_ud)) :=
  ⟨by decide,
    c7_reflection_symmetry ⟨1/4, 1/2⟩ ⟨1, -1/4⟩ ⟨1, 5/16⟩ .East (by decide)⟩

/-- C7 counterexample: flipping only the ray's x-sign (keeping the position)
does not mirror the exit point: from `(1/4, 1/2)`, ray `(1,1)` exits at
`(3/4, 1)` North but ray `(-1,1)` exits at `(0, 3/4)` West, and
`0 ≠ 1 - 3/4`. -/
theorem c7_counterexample :
    raycast_in_box ⟨1/4, 1/2⟩ ⟨1, 1⟩ = some (⟨3/4, 1⟩, .North) ∧
    raycast_in_box ⟨1/4, 1/2⟩ ⟨-1, 1⟩ = some (⟨0, 3/4⟩, .West) ∧
    ¬((0 : ℚ) = 1 - 3/4 ∧ Direction.West = Direction.North.reflect_lr) := by
  refine ⟨by decide, by decide, by decide⟩

/-- C8: when an up-right ray exits exactly at the corner `(1,1)` (the tie in
which both intercept checks land on the boundary simultaneously), the
y-intercept-first branch of the canonical case wins, so the reported side is
North; this covers the reference case from `(0.5, 0.5)` along `(1, 1)`. -/
theorem c8_corner_tie_north (p r : Vec2) (hx : 0 < r.x) (hy : 0 < r.y)
    (hc : (1 - p.x) * r.y = r.x * (1 - p.y)) :
    raycast_in_box p r = some (⟨1, 1⟩, .North) := by
  obtain ⟨px, py⟩ := p
  obtain ⟨rx, ry⟩ := r
  simp only [Vec2_mk_x, Vec2_mk_y] at hx hy hc
  have key : (1 - px) - (-rx / -ry) * (1 - py) = 0 := by
    rw [neg_div_neg_eq]
    have hmul : (rx / ry) * (1 - py) = 1 - px := by
      rw [div_mul_eq_mul_div, eq_comm, eq_div_iff hy.ne']
      linarith [hc]
    linarith [hmul]
  have h1 : towards_origin ⟨1 - px, 1 - py⟩ ⟨-rx, -ry⟩ = some (⟨0, 0⟩, .South) := by
    simp only [towards_origin, Vec2_mk_x, Vec2_mk_y]
    rw [if_neg (by simp [hx.ne']), if_neg (by simp [hy.ne']),
      if_neg (not_lt.mpr key.ge), key, if_neg (by simp; linarith)]
  have h2 : raycast_in_box_core ⟨1 - px, py⟩ ⟨-rx, ry⟩ = some (⟨0, 1⟩, .North) := by
    rw [raycast_in_box_core, if_pos (by simpa using hy)]
    simp only [Vec2_mk_x, Vec2_mk_y]
    rw [h1]
    simp [Direction.reflect_ud]
  rw [raycast_in_box, if_pos (by simpa using hx)]
  simp only [Vec2_mk_x, Vec2_mk_y]
  rw [h2]
  simp [Direction.reflect_lr]

/-- C8 witness: the corner statement at the reference test input. -/
theorem c8_corner_tie_north_witness :
    raycast_in_box ⟨1/2, 1/2⟩ ⟨1, 1⟩ = some (⟨1, 1⟩, .North) :=
  c8_corner_tie_north ⟨1/2, 1/2⟩ ⟨1, 1⟩ (by norm_num) (by norm_num) (by norm_num)

/-- Angle in [0, π] between two vectors — the spec's notion used for the
"angular spread" between the first and last generated rays. -/
noncomputable def angleBetween (u v : Vec2) : ℝ :=
  Real.arccos (((Vec2.dot u v : ℚ) : ℝ) /
    (Real.sqrt ((Vec2.dot u u : ℚ) : ℝ) * Real.sqrt ((Vec2.dot v v : ℚ) : ℝ)))

/-- `gen_ray` written as the facing vector plus a scalar multiple of the
left-perpendicular. -/
lemma gen_ray_eq (f : Vec2) (w : ℚ) (n i : ℕ) :
    gen_ray f w n i =
      f + Vec2.scale (w / 2 - ((i : ℚ) * w) / (n : ℚ)) ⟨f.y, -f.x⟩ := by
  refine Vec2_eq_of_coords _ _ ?_ ?_ <;>
    simp only [gen_ray, Vec2.scale, Vec2_add_x, Vec2_add_y, Vec2_sub_x,
      Vec2_sub_y, Vec2_mk_x, Vec2_mk_y] <;> ring

/-- Dot product of two rays in the fan of a unit facing vector. -/
lemma dot_fan (f : Vec2) (hf : f.x * f.x + f.y * f.y = 1) (c c' : ℚ) :
    Vec2.dot (f + Vec2.scale c ⟨f.y, -f.x⟩) (f + Vec2.scale c' ⟨f.y, -f.x⟩) =
      1 + c * c' := by
  simp only [Vec2.dot, Vec2.scale, Vec2_add_x, Vec2_add_y, Vec2_mk_x, Vec2_mk_y]
  linear_combination (1 + c * c') * hf

set_option maxHeartbeats 1000000 in
/-- Doubling both tangent offsets strictly increases the angle:
`arccos` comparison of the corresponding normalised dot products. -/
lemma arccos_spread_strict (a b : ℝ) (ha : 0 < a) (hb : 0 ≤ b) :
    Real.arccos ((1 - a * b) / (Real.sqrt (1 + a * a) * Real.sqrt (1 + b * b))) <
      Real.arccos ((1 - 2 * a * (2 * b)) /
        (Real.sqrt (1 + 2 * a * (2 * a)) * Real.sqrt (1 + 2 * b * (2 * b)))) := by
  have hs1 : (0 : ℝ) < Real.sqrt (1 + a * a) := Real.sqrt_pos.mpr (by nlinarith)
  have hs2 : (0 : ℝ) < Real.sqrt (1 + b * b) := Real.sqrt_pos.mpr (by nlinarith)
  have ht1 : (0 : ℝ) < Real.sqrt (1 + 2 * a * (2 * a)) :=
    Real.sqrt_pos.mpr (by nlinarith)
  have ht2 : (0 : ℝ) < Real.sqrt (1 + 2 * b * (2 * b)) :=
    Real.sqrt_pos.mpr (by nlinarith)
  have hS : (0 : ℝ) < Real.sqrt (1 + a * a) * Real.sqrt (1 + b * b) :=
    mul_pos hs1 hs2
  have hT : (0 : ℝ) < Real.sqrt (1 + 2 * a * (2 * a)) * Real.sqrt (1 + 2 * b * (2 * b)) :=
    mul_pos ht1 ht2
  have hSsq : (Real.sqrt (1 + a * a) * Real.sqrt (1 + b * b)) ^ 2 =
      (1 + a * a) * (1 + b * b) := by
    rw [mul_pow, Real.sq_sqrt (by nlinarith), Real.sq_sqrt (by nlinarith)]
  have hTsq : (Real.sqrt (1 + 2 * a * (2 * a)) * Real.sqrt (1 + 2 * b * (2 * b))) ^ 2 =
      (1 + 2 * a * (2 * a)) * (1 + 2 * b * (2 * b)) := by
    rw [mul_pow, Real.sq_sqrt (by nlinarith), Real.sq_sqrt (by nlinarith)]
  set S := Real.sqrt (1 + a * a) * Real.sqrt (1 + b * b) with hS_def
  set T := Real.sqrt (1 + 2 * a * (2 * a)) * Real.sqrt (1 + 2 * b * (2 * b)) with hT_def
  have hAbound : |1 - a * b| ≤ S :=
    calc |1 - a * b| = Real.sqrt ((1 - a * b) ^ 2) := (Real.sqrt_sq_eq_abs _).symm
      _ ≤ Real.sqrt (S ^ 2) :=
          Real.sqrt_le_sqrt (by rw [hSsq]; nlinarith [sq_nonneg (a + b)])
      _ = S := Real.sqrt_sq hS.le
  have hA2bound : |1 - 2 * a * (2 * b)| ≤ T :=
    calc |1 - 2 * a * (2 * b)| = Real.sqrt ((1 - 2 * a * (2 * b)) ^ 2) :=
          (Real.sqrt_sq_eq_abs _).symm
      _ ≤ Real.sqrt (T ^ 2) :=
          Real.sqrt_le_sqrt (by rw [hTsq]; nlinarith [sq_nonneg (2 * a + 2 * b)])
      _ = T := Real.sqrt_sq hT.le
  obtain ⟨hA1, hA2⟩ := abs_le.mp hAbound
  obtain ⟨hB1, hB2⟩ := abs_le.mp hA2bound
  have hymem : (1 - a * b) / S ∈ Set.Icc (-1 : ℝ) 1 := by
    constructor
    · rw [le_div_iff hS]; linarith
    · rw [div_le_one hS]; linarith
  have hxmem : (1 - 2 * a * (2 * b)) / T ∈ Set.Icc (-1 : ℝ) 1 := by
    constructor
    · rw [le_div_iff hT]; linarith
    · rw [div_le_one hT]; linarith
  have hE : (1 - a * b) ^ 2 * ((1 + 2 * a * (2 * a)) * (1 + 2 * b * (2 * b))) -
      (1 - 2 * a * (2 * b)) ^ 2 * ((1 + a * a) * (1 + b * b)) =
      3 * (a + b) ^ 2 * (1 - 2 * (a * b)) * (1 + 2 * (a * b)) := by ring
  have hxy : (1 - 2 * a * (2 * b)) / T < (1 - a * b) / S := by
    rw [div_lt_div_iff hT hS]
    rcases le_or_lt 0 (1 - 2 * a * (2 * b)) with hA' | hA'
    · have hab4 : 4 * (a * b) ≤ 1 := by nlinarith
      have habnn : (0 : ℝ) ≤ a * b := mul_nonneg ha.le hb
      have hApos : (0 : ℝ) ≤ 1 - a * b := by nlinarith
      have hEpos : (0 : ℝ) <
          3 * (a + b) ^ 2 * (1 - 2 * (a * b)) * (1 + 2 * (a * b)) := by
        have h1 : (0 : ℝ) < (a + b) ^ 2 := by positivity
        have f1 : (0 : ℝ) < 1 - 2 * (a * b) := by linarith
        have f2 : (0 : ℝ) < 1 + 2 * (a * b) := by linarith
        exact mul_pos (mul_pos (mul_pos (by norm_num : (0 : ℝ) < 3) h1) f1) f2
      have hsq : ((1 - 2 * a * (2 * b)) * S) ^ 2 < ((1 - a * b) * T) ^ 2 := by
        have ex1 : ((1 - 2 * a * (2 * b)) * S) ^ 2 =
            (1 - 2 * a * (2 * b)) ^ 2 * ((1 + a * a) * (1 + b * b)) := by
          rw [mul_pow, hSsq]
        have ex2 : ((1 - a * b) * T) ^ 2 =
            (1 - a * b) ^ 2 * ((1 + 2 * a * (2 * a)) * (1 + 2 * b * (2 * b))) := by
          rw [mul_pow, hTsq]
        rw [ex1, ex2]
        linarith [hE, hEpos]
      exact lt_of_pow_lt_pow_left₀ 2 (mul_nonneg hApos hT.le) hsq
    · rcases le_or_lt 0 (1 - a * b) with hA | hA
      · calc (1 - 2 * a * (2 * b)) * S < 0 := mul_neg_of_neg_of_pos hA' hS
          _ ≤ (1 - a * b) * T := mul_nonneg hA hT.le
      · have hab1 : (1 : ℝ) < a * b := by nlinarith
        have h1 : (0 : ℝ) < (a + b) ^ 2 := by positivity
        have hEneg : 3 * (a + b) ^ 2 * (1 - 2 * (a * b)) * (1 + 2 * (a * b)) < 0 := by
          have f1 : 1 - 2 * (a * b) < 0 := by linarith
          have f2 : (0 : ℝ) < 1 + 2 * (a * b) := by linarith
          have f3 : 3 * (a + b) ^ 2 * (1 - 2 * (a * b)) < 0 :=
            mul_neg_of_pos_of_neg (by positivity) f1
          exact mul_neg_of_neg_of_pos f3 f2
        have hsq : ((-(1 - a * b)) * T) ^ 2 < ((-(1 - 2 * a * (2 * b))) * S) ^ 2 := by
          have ex1 : ((-(1 - a * b)) * T) ^ 2 =
              (1 - a * b) ^ 2 * ((1 + 2 * a * (2 * a)) * (1 + 2 * b * (2 * b))) := by
            rw [mul_pow, hTsq]
            ring
          have ex2 : ((-(1 - 2 * a * (2 * b))) * S) ^ 2 =
              (1 - 2 * a * (2 * b)) ^ 2 * ((1 + a * a) * (1 + b * b)) := by
            rw [mul_pow, hSsq]
            ring
          rw [ex1, ex2]
          linarith [hE, hEneg]
        have h0 : (0 : ℝ) ≤ (-(1 - 2 * a * (2 * b))) * S :=
          mul_nonneg (by linarith) hS.le
        have := lt_of_pow_lt_pow_left₀ 2 h0 hsq
        linarith
  exact Real.strictAntiOn_arccos hxmem hymem hxy

/-- C9 (amended): for a unit facing vector, a positive plane width and at
least two rays, doubling the projection-plane width strictly increases the
angle between the first and the last generated ray; with a single ray the
first and last ray coincide and the spread is 0 at every width, so the
claim's "every ray count" fails at `n_rays = 1`. -/
theorem c9_wider_plane_wider_spread (f : Vec2) (w : ℚ) (n : ℕ)
    (hf : f.x * f.x + f.y * f.y = 1) (hw : 0 < w) (hn : 2 ≤ n) :
    angleBetween (gen_ray f w n 0) (gen_ray f w n (n - 1)) <
      angleBetween (gen_ray f (2 * w) n 0) (gen_ray f (2 * w) n (n - 1)) := by
  have hn1 : 1 ≤ n := le_trans (by norm_num) hn
  have hnq : (0 : ℚ) < (n : ℚ) := by
    have : 0 < n := by omega
    exact_mod_cast this
  have hnq2 : (2 : ℚ) ≤ (n : ℚ) := by exact_mod_cast hn
  have hcast : ((n - 1 : ℕ) : ℚ) = (n : ℚ) - 1 := by
    push_cast [Nat.cast_sub hn1]
    ring
  -- tangent offsets of the first and last rays
  have ha : (0 : ℚ) < w / 2 := by linarith
  have hb : (0 : ℚ) ≤ ((n : ℚ) - 1) * w / (n : ℚ) - w / 2 := by
    rw [sub_nonneg, div_le_div_iff (by norm_num) hnq]
    nlinarith
  have hdot : ∀ (v : ℚ) (i j : ℕ),
      Vec2.dot (gen_ray f v n i) (gen_ray f v n j) =
        1 + (v / 2 - ((i : ℚ) * v) / (n : ℚ)) * (v / 2 - ((j : ℚ) * v) / (n : ℚ)) := by
    intro v i j
    rw [gen_ray_eq f v n i, gen_ray_eq f v n j, dot_fan f hf]
  have e1 : Vec2.dot (gen_ray f w n 0) (gen_ray f w n (n - 1)) =
      1 - (w / 2) * (((n : ℚ) - 1) * w / (n : ℚ) - w / 2) := by
    rw [hdot, hcast]
    ring
  have e2 : Vec2.dot (gen_ray f w n 0) (gen_ray f w n 0) =
      1 + (w / 2) * (w / 2) := by
    rw [hdot]
    ring
  have e3 : Vec2.dot (gen_ray f w n (n - 1)) (gen_ray f w n (n - 1)) =
      1 + (((n : ℚ) - 1) * w / (n : ℚ) - w / 2) * (((n : ℚ) - 1) * w / (n : ℚ) - w / 2) := by
    rw [hdot, hcast]
    ring
  have e4 : Vec2.dot (gen_ray f (2 * w) n 0) (gen_ray f (2 * w) n (n - 1)) =
      1 - 2 * (w / 2) * (2 * (((n : ℚ) - 1) * w / (n : ℚ) - w / 2)) := by
    rw [hdot, hcast]
    field_simp
    ring
  have e5 : Vec2.dot (gen_ray f (2 * w) n 0) (gen_ray f (2 * w) n 0) =
      1 + 2 * (w / 2) * (2 * (w / 2)) := by
    rw [hdot]
    ring
  have e6 : Vec2.dot (gen_ray f (2 * w) n (n - 1)) (gen_ray f (2 * w) n (n - 1)) =
      1 + 2 * (((n : ℚ) - 1) * w / (n : ℚ) - w / 2) *
        (2 * (((n : ℚ) - 1) * w / (n : ℚ) - w / 2)) := by
    rw [hdot, hcast]
    field_simp
    ring
  unfold angleBetween
  rw [e1, e2, e3, e4, e5, e6]
  push_cast
  exact arccos_spread_strict ((w : ℝ) / 2)
    (((n : ℝ) - 1) * (w : ℝ) / (n : ℝ) - (w : ℝ) / 2)
    (by push_cast at ha ⊢; exact_mod_cast ha)
    (by exact_mod_cast hb)

/-- C9 witness: the amended statement applied to a concrete camera. -/
theorem c9_wider_plane_wider_spread_witness :
    angleBetween (gen_ray ⟨1, 0⟩ 1 2 0) (gen_ray ⟨1, 0⟩ 1 2 (2 - 1)) <
      angleBetween (gen_ray ⟨1, 0⟩ (2 * 1) 2 0) (gen_ray ⟨1, 0⟩ (2 * 1) 2 (2 - 1)) :=
  c9_wider_plane_wider_spread ⟨1, 0⟩ 1 2 (by norm_num) (by norm_num) (by norm_num)

/-- C9 counterexample: with a single ray the first and last generated rays
coincide, so the spread is `arccos 1 = 0` at width 1 and at width 2 alike —
the spread does not strictly increase for every ray count. -/
theorem c9_counterexample :
    gen_ray ⟨1, 0⟩ 1 1 0 = gen_ray ⟨1, 0⟩ 1 1 (1 - 1) ∧
    angleBetween (gen_ray ⟨1, 0⟩ 1 1 0) (gen_ray ⟨1, 0⟩ 1 1 (1 - 1)) = 0 ∧
    angleBetween (gen_ray ⟨1, 0⟩ (2 * 1) 1 0) (gen_ray ⟨1, 0⟩ (2 * 1) 1 (1 - 1)) = 0 ∧
    ¬(angleBetween (gen_ray ⟨1, 0⟩ 1 1 0) (gen_ray ⟨1, 0⟩ 1 1 (1 - 1)) <
      angleBetween (gen_ray ⟨1, 0⟩ (2 * 1) 1 0) (gen_ray ⟨1, 0⟩ (2 * 1) 1 (1 - 1))) := by
  have self_angle : ∀ u : Vec2, Vec2.dot u u ≠ 0 → angleBetween u u = 0 := by
    intro u hu
    unfold angleBetween
    have hpos : (0 : ℚ) < Vec2.dot u u := by
      rcases lt_trichotomy (Vec2.dot u u) 0 with h | h | h
      · exact absurd h (by simp [Vec2.dot]; nlinarith [sq_nonneg u.x, sq_nonneg u.y])
      · exact absurd h hu
      · exact h
    have hposR : (0 : ℝ) < ((Vec2.dot u u : ℚ) : ℝ) := by exact_mod_cast hpos
    rw [Real.mul_self_sqrt hposR.le, div_self hposR.ne']
    exact Real.arccos_one
  refine ⟨rfl, ?_, ?_, ?_⟩
  · exact self_angle _ (by decide)
  · exact self_angle _ (by decide)
  · intro hlt
    rw [self_angle _ (by decide), self_angle _ (by decide)] at hlt
    exact lt_irrefl 0 hlt

/-- C10: every hit returned by `raycast` names an occupied cell; that cell
is the neighbour, through the exit side computed by `raycast_in_box`, of the
starting cell or of a cell the world reported empty; the struck side is the
negation of the exit direction; and if the world is empty at every
coordinate with a negative component then both components of the hit wall
are non-negative (the Rust `usize` cast cannot fail). -/
theorem c10_hit_invariants (world : IVec2 → Bool) (pos r : Vec2)
    (max_dist : ℚ) (h : RaycastHit)
    (hres : raycast world pos r max_dist = some h) :
    world h.wall = true ∧
    (∃ g mp q d, (g = floorGrid pos ∨ world g = false) ∧
      raycast_in_box (mp - g.toVec2) r = some (q, d) ∧
      h.wall = g + d.toIVec ∧ h.wall_side = -d ∧ h.hit_pos = q + g.toVec2) ∧
    ((∀ c : IVec2, c.x < 0 ∨ c.y < 0 → world c = false) →
      0 ≤ h.wall.x ∧ 0 ≤ h.wall.y) := by
  unfold raycast at hres
  rcases hloop : raycastLoop world pos r (max_dist * max_dist)
      (raycastFuel max_dist) pos (floorGrid pos) with _ | res
  · rw [hloop] at hres; simp at hres
  · rw [hloop] at hres
    cases res with
    | panicked => simp at hres
    | miss => simp at hres
    | hit hh =>
      simp only [Option.some.injEq] at hres
      subst hres
      obtain ⟨hw, spec⟩ := raycastLoop_hit_spec world pos r (max_dist * max_dist)
        (raycastFuel max_dist) pos (floorGrid pos) hh (Or.inl rfl) hloop
      refine ⟨hw, spec, fun hneg => ⟨?_, ?_⟩⟩
      · by_contra hxneg
        push_neg at hxneg
        have hfalse := hneg _ (Or.inl hxneg)
        simp [hw] at hfalse
      · by_contra hyneg
        push_neg at hyneg
        have hfalse := hneg _ (Or.inr hyneg)
        simp [hw] at hfalse

/-- C10 witness: the invariants instantiated on a fixture hit. -/
theorem c10_hit_invariants_witness :
    raycast exampleWorld ⟨5/2, 5/2⟩ ⟨-1, 0⟩ 100 =
      some ⟨⟨1, 5/2⟩, ⟨0, 2⟩, .East⟩ ∧
    (exampleWorld (RaycastHit.mk ⟨1, 5/2⟩ ⟨0, 2⟩ .East).wall = true ∧
    (∃ g mp q d,
      (g = floorGrid ⟨5/2, 5/2⟩ ∨ exampleWorld g = false) ∧
      raycast_in_box (mp - g.toVec2) ⟨-1, 0⟩ = some (q, d) ∧
      (RaycastHit.mk ⟨1, 5/2⟩ ⟨0, 2⟩ .East).wall = g + d.toIVec ∧
      (RaycastHit.mk ⟨1, 5/2⟩ ⟨0, 2⟩ .East).wall_side = -d ∧
      (RaycastHit.mk ⟨1, 5/2⟩ ⟨0, 2⟩ .East).hit_pos = q + g.toVec2) ∧
    ((∀ c : IVec2, c.x < 0 ∨ c.y < 0 → exampleWorld c = false) →
      0 ≤ (RaycastHit.mk ⟨1, 5/2⟩ ⟨0, 2⟩ .East).wall.x ∧
      0 ≤ (RaycastHit.mk ⟨1, 5/2⟩ ⟨0, 2⟩ .East).wall.y)) :=
  ⟨by decide,
    c10_hit_invariants exampleWorld ⟨5/2, 5/2⟩ ⟨-1, 0⟩ 100
      (RaycastHit.mk ⟨1, 5/2⟩ ⟨0, 2⟩ .East) (by decide)⟩

end Backrooms
